import Mathlib

/-!
Verification of the message-handling core of XYBotV2 against its
natural-language specification.

The development shallowly embeds the relevant Python code:

* `utils/xybot.py` — envelope normalization (`process_text_message`,
  `ignore_check`) and the save/emit discipline of the per-kind
  `process_*_message` pipeline.
* `plugins/ChatAgents/main.py` — the stream segmenter
  (`_check_chunk_end_for_split`, `_split_content_by_punctuation`,
  `_handle_stream_response`), the dispatch queue consumer
  (`_message_sender`), the response-eligibility check (`should_respond`)
  and the voice-channel probability.

Text is modelled as `List Char`; Python floats are modelled as exact
rationals (every property proved is order-theoretic and stable under
that reading); bounded loops are realised with an explicit fuel argument
equal to an upper bound on the number of iterations actually performed,
so every definition is executable and kernel-reducible.
-/

/-! ## Character classes

`pyIsSpace` models Python's `str.strip` / regex `\s` whitespace class
(the Unicode whitespace code points recognised by CPython).
`pyIsWordChar` models the regex `\w` class over the character ranges
exercised by this codebase: ASCII alphanumerics, underscore, CJK
unified ideographs and kana.  `isSentenceTerminator` is the literal
character class `[.。！？!?…]` from `split_pattern`
(`plugins/ChatAgents/main.py` line 67). -/

def pyIsSpace (c : Char) : Bool :=
  let n := c.toNat
  (9 ≤ n && n ≤ 13) || (28 ≤ n && n ≤ 31) || n == 32 || n == 0x85 ||
  n == 0xA0 || n == 0x1680 || (0x2000 ≤ n && n ≤ 0x200A) ||
  n == 0x2028 || n == 0x2029 || n == 0x202F || n == 0x205F || n == 0x3000

def pyIsWordChar (c : Char) : Bool :=
  c.isAlphanum || c == '_' ||
  (0x4E00 ≤ c.toNat && c.toNat ≤ 0x9FFF) ||
  (0x3040 ≤ c.toNat && c.toNat ≤ 0x30FF)

def isSentenceTerminator (c : Char) : Bool :=
  c == '.' || c == '。' || c == '！' || c == '？' ||
  c == '!' || c == '?' || c == '…'

/-- The characters of a string literal, as a list. -/
def lchars (s : String) : List Char := s.data

/-! ## Python `str.strip` over `List Char` -/

def lstrip (s : List Char) : List Char := s.dropWhile pyIsSpace

def rstrip (s : List Char) : List Char := (s.reverse.dropWhile pyIsSpace).reverse

/-- Python `str.strip()`: drop whitespace from both ends. -/
def pyStrip (s : List Char) : List Char := rstrip (lstrip s)

def allSpace (s : List Char) : Prop := ∀ c ∈ s, pyIsSpace c = true

theorem allSpace_takeWhile (s : List Char) : allSpace (s.takeWhile pyIsSpace) :=
  fun _ hc => List.mem_takeWhile_imp hc

theorem allSpace_append {a b : List Char} (ha : allSpace a) (hb : allSpace b) :
    allSpace (a ++ b) := by
  intro c hc
  rcases List.mem_append.mp hc with h | h
  · exact ha c h
  · exact hb c h

theorem allSpace_nil : allSpace [] := by intro c hc; cases hc

theorem lstrip_decomp (s : List Char) :
    s = s.takeWhile pyIsSpace ++ lstrip s :=
  (List.takeWhile_append_dropWhile pyIsSpace s).symm

theorem rstrip_decomp (s : List Char) :
    s = rstrip s ++ (s.reverse.takeWhile pyIsSpace).reverse := by
  conv_lhs => rw [← List.reverse_reverse s,
    ← List.takeWhile_append_dropWhile (p := pyIsSpace) (l := s.reverse)]
  rw [List.reverse_append]
  rfl

theorem allSpace_reverse {s : List Char} (h : allSpace s) : allSpace s.reverse := by
  intro c hc
  exact h c (List.mem_reverse.mp hc)

/-- Decomposition of a list around its stripped core:
`s = w₁ ++ pyStrip s ++ w₂` with `w₁`, `w₂` whitespace-only. -/
theorem pyStrip_decomp (s : List Char) :
    ∃ w₁ w₂, allSpace w₁ ∧ allSpace w₂ ∧ s = w₁ ++ pyStrip s ++ w₂ := by
  refine ⟨s.takeWhile pyIsSpace, ((lstrip s).reverse.takeWhile pyIsSpace).reverse,
    allSpace_takeWhile s, allSpace_reverse (allSpace_takeWhile _), ?_⟩
  conv_lhs => rw [lstrip_decomp s]
  rw [List.append_assoc]
  congr 1
  exact rstrip_decomp (lstrip s)

theorem pyStrip_nil_allSpace {s : List Char} (h : pyStrip s = []) : allSpace s := by
  obtain ⟨w₁, w₂, h₁, h₂, hs⟩ := pyStrip_decomp s
  rw [h] at hs
  subst hs
  intro c hc
  simp only [List.append_nil, List.mem_append] at hc
  rcases hc with h | h
  · exact h₁ c h
  · exact h₂ c h

theorem lstrip_idem (s : List Char) : lstrip (lstrip s) = lstrip s := by
  induction s with
  | nil => rfl
  | cons c t ih =>
      by_cases h : pyIsSpace c = true
      · simp [lstrip, List.dropWhile, h] at ih ⊢
        simpa [lstrip] using ih
      · simp [lstrip, List.dropWhile, h]

theorem rstrip_idem (s : List Char) : rstrip (rstrip s) = rstrip s := by
  unfold rstrip
  rw [List.reverse_reverse]
  have := lstrip_idem s.reverse
  unfold lstrip at this
  rw [this]

/-- The list `rstrip s` is a prefix of `s`. -/
theorem rstrip_prefix (s : List Char) : rstrip s <+: s := by
  refine ⟨(s.reverse.takeWhile pyIsSpace).reverse, ?_⟩
  exact (rstrip_decomp s).symm

theorem lstrip_head_not_space {s : List Char} {c : Char} {t : List Char}
    (h : lstrip s = c :: t) : pyIsSpace c = false := by
  induction s with
  | nil => simp [lstrip] at h
  | cons a r ih =>
      by_cases ha : pyIsSpace a = true
      · simp [lstrip, List.dropWhile, ha] at h
        exact ih (by simpa [lstrip] using h)
      · simp [lstrip, List.dropWhile, ha] at h
        rw [← h.1]
        simpa using ha

theorem lstrip_eq_self_of_head {s : List Char}
    (h : ∀ c t, s = c :: t → pyIsSpace c = false) : lstrip s = s := by
  cases s with
  | nil => rfl
  | cons c t => simp [lstrip, List.dropWhile, h c t rfl]

/-- Idempotence of `pyStrip`. -/
theorem pyStrip_idem (s : List Char) : pyStrip (pyStrip s) = pyStrip s := by
  unfold pyStrip
  have hl : lstrip (rstrip (lstrip s)) = rstrip (lstrip s) := by
    apply lstrip_eq_self_of_head
    intro c t h
    obtain ⟨u, hu⟩ := rstrip_prefix (lstrip s)
    have : lstrip s = c :: (t ++ u) := by rw [← hu, h]; simp
    exact lstrip_head_not_space this
  rw [hl, rstrip_idem]

/-! ## The sentence-splitting regex

`split_pattern` (`plugins/ChatAgents/main.py` line 67) is
`(?<!\.)\s+\w+[.。！？!?…]+(?![.。！？!?…])|(?<![:：])\n\n`.
The three character classes `\s`, `\w` and the terminator class are
pairwise disjoint, so greedy matching never backtracks: each `X+`
consumes the maximal run, and the trailing negative lookahead
`(?![.。！？!?…])` is automatically satisfied after a maximal terminator
run.  A match attempt therefore only needs the character immediately
before the current position (for the lookbehinds) and the suffix from
the current position. -/

/-- Length of the maximal leading run of characters satisfying `p`. -/
def leadRun (p : Char → Bool) : List Char → Nat
  | [] => 0
  | c :: t => if p c then leadRun p t + 1 else 0

/-- First alternative `(?<!\.)\s+\w+[.。！？!?…]+(?![.。！？!?…])`:
whitespace run, word-character run, terminator run, with the character
before the match not a period.  Returns the match length. -/
def matchSentenceAlt (prev : Option Char) (s : List Char) : Option Nat :=
  if prev == some '.' then none
  else
    let n₁ := leadRun pyIsSpace s
    if n₁ == 0 then none
    else
      let s₁ := s.drop n₁
      let n₂ := leadRun pyIsWordChar s₁
      if n₂ == 0 then none
      else
        let s₂ := s₁.drop n₂
        let n₃ := leadRun isSentenceTerminator s₂
        if n₃ == 0 then none else some (n₁ + n₂ + n₃)

/-- Second alternative `(?<![:：])\n\n`. -/
def matchBlankLine (prev : Option Char) (s : List Char) : Option Nat :=
  match s with
  | '\n' :: '\n' :: _ =>
      if prev == some ':' || prev == some '：' then none else some 2
  | _ => none

/-- One match attempt of `split_pattern` at a position, Python preferring
the left alternative. -/
def matchSplitAt (prev : Option Char) (s : List Char) : Option Nat :=
  match matchSentenceAlt prev s with
  | some n => some n
  | none => matchBlankLine prev s

theorem matchSentenceAlt_pos {prev : Option Char} {s : List Char} {n : Nat}
    (h : matchSentenceAlt prev s = some n) : 1 ≤ n := by
  unfold matchSentenceAlt at h
  split at h
  · exact absurd h (by simp)
  · simp only [] at h
    split at h
    · exact absurd h (by simp)
    · split at h
      · exact absurd h (by simp)
      · split at h
        · exact absurd h (by simp)
        · rename_i hn₁ _ _
          simp only [beq_iff_eq] at hn₁
          simp only [Option.some.injEq] at h
          omega

theorem matchSplitAt_pos {prev : Option Char} {s : List Char} {n : Nat}
    (h : matchSplitAt prev s = some n) : 1 ≤ n := by
  unfold matchSplitAt at h
  split at h
  · rename_i m hm
    cases h
    exact matchSentenceAlt_pos hm
  · unfold matchBlankLine at h
    split at h
    · split at h
      · exact absurd h (by simp)
      · simp only [Option.some.injEq] at h
        omega
    · exact absurd h (by simp)

/-- Model of `re.finditer` for `split_pattern`: scan left to right, at each
position try a match; on success record `(start, end)` and resume at the
match end, otherwise advance one character.  `prev` is the character
before the current position (for the lookbehinds), `pos` the current
index.  The fuel is an upper bound on the characters left to scan; each
step consumes at least one character, so fuel `s.length` is exact. -/
def finditerSplit : Nat → Option Char → Nat → List Char → List (Nat × Nat)
  | 0, _, _, _ => []
  | fuel + 1, prev, pos, s =>
      match s with
      | [] => []
      | c :: rest =>
          match matchSplitAt prev s with
          | some n =>
              (pos, pos + n) ::
                finditerSplit fuel ((s.take n).getLast?) (pos + n) (s.drop n)
          | none => finditerSplit fuel (some c) (pos + 1) rest

/-- All matches of `split_pattern` in `s`. -/
def findSplitMatches (s : List Char) : List (Nat × Nat) :=
  finditerSplit s.length none 0 s

theorem finditerSplit_end_lower {fuel : Nat} :
    ∀ {prev : Option Char} {pos : Nat} {s : List Char} {m : Nat × Nat},
      m ∈ finditerSplit fuel prev pos s → pos + 1 ≤ m.2 := by
  induction fuel with
  | zero => intro _ _ _ _ h; cases h
  | succ fuel ih =>
      intro prev pos s m h
      unfold finditerSplit at h
      cases s with
      | nil => cases h
      | cons c rest =>
          revert h
          cases hm : matchSplitAt prev (c :: rest) with
          | some n =>
              intro h
              rcases List.mem_cons.mp h with h | h
              · subst h
                have := matchSplitAt_pos hm
                simp only []
                omega
              · have := ih h
                have := matchSplitAt_pos hm
                omega
          | none =>
              intro h
              have := ih h
              omega

theorem findSplitMatches_end_lower {s : List Char} {m : Nat × Nat}
    (h : m ∈ findSplitMatches s) : 1 ≤ m.2 :=
  finditerSplit_end_lower h

/-! ## Code-fence counting and the boundary checker -/

/-- The triple-backtick code-fence marker. -/
def fenceMarker : List Char := lchars "```"

/-- Python `str.count` of a fixed non-empty pattern: non-overlapping
occurrences scanning left to right.  Each step consumes at least one
character, so fuel `s.length` is exact. -/
def countSubF (pat : List Char) : Nat → List Char → Nat
  | 0, _ => 0
  | fuel + 1, s =>
      match s with
      | [] => 0
      | _ :: rest =>
          if pat.isPrefixOf s then countSubF pat fuel (s.drop pat.length) + 1
          else countSubF pat fuel rest

def countSub (pat s : List Char) : Nat := countSubF pat s.length s

/-- The 50-character tail examined by `_check_chunk_end_for_split`
(`text[max(0, len(text) - max_look_back):]` with the default
`max_look_back = 50`). -/
def tailWindow (text : List Char) : List Char :=
  text.drop (text.length - 50)

/-- The extended window `text[max(0, check_start - 100):]` used to
re-count code fences. -/
def extendedWindow (text : List Char) : List Char :=
  text.drop ((text.length - 50) - 100)

/-- The paired-symbol map `paired_symbols` of the plugin: maps an
opening quote to its closing quote (the ASCII quotes map to
themselves). -/
def pairedClose (c : Char) : Option Char :=
  if c == Char.ofNat 39 then some (Char.ofNat 39)
  else if c == Char.ofNat 34 then some (Char.ofNat 34)
  else if c == Char.ofNat 0x201C then some (Char.ofNat 0x201D)
  else if c == Char.ofNat 0x2018 then some (Char.ofNat 0x2019)
  else none

/-- The test `char in self.paired_symbols or char in self.paired_symbols.values()`. -/
def isPairedQuote (c : Char) : Bool :=
  c == Char.ofNat 39 || c == Char.ofNat 34 ||
  c == Char.ofNat 0x201C || c == Char.ofNat 0x201D ||
  c == Char.ofNat 0x2018 || c == Char.ofNat 0x2019

/-- One step of the quote-pairing scan: push unless the character equals
the closing symbol for the top of stack, in which case pop. -/
def quoteStep (stack : List Char) (c : Char) : List Char :=
  if isPairedQuote c then
    match stack with
    | [] => [c]
    | top :: rest => if pairedClose top == some c then rest else c :: top :: rest
  else stack

/-- Model of `_check_chunk_end_for_split` (`plugins/ChatAgents/main.py` lines
130-178) with the default look-back of 50.  Returns
`(found, position, inSpecialRegion)`; the position is `-1` when no
usable boundary exists, mirroring the source. -/
def check_chunk_end_for_split (text : List Char) : Bool × Int × Bool :=
  if text.isEmpty then (false, -1, false)
  else
    let tail := tailWindow text
    if countSub fenceMarker tail % 2 != 0 &&
       countSub fenceMarker (extendedWindow text) % 2 != 0 then
      (false, -1, true)
    else
      let stack := tail.foldl quoteStep []
      if !stack.isEmpty then (false, -1, true)
      else
        match (findSplitMatches tail).getLast? with
        | none => (false, -1, false)
        | some m =>
            let gpos := (text.length - 50) + m.2
            match text.get? gpos with
            | none => (true, (gpos : Int), false)
            | some c =>
                if isSentenceTerminator c then (false, -1, false)
                else (true, (gpos : Int), false)

/-! ## `_split_content_by_punctuation`

`plugins/ChatAgents/main.py` lines 180-204.  The `while` loop exits as
soon as a check finds no boundary (`last_check_length` is set to the
unchanged buffer length) or reports a special region, so it is
equivalent to: split while a boundary is found and the buffer holds at
least 10 characters.  Every found boundary position is at least 1
(`findSplitMatches_end_lower`), so each iteration strictly shortens the
buffer and fuel `content.length` is an exact bound. -/

/-- The trailing `remaining = content_buffer.strip()` emission. -/
def finalSegment (buffer : List Char) : List (List Char) :=
  if (pyStrip buffer).isEmpty then [] else [pyStrip buffer]

def splitLoopF : Nat → List Char → List (List Char)
  | 0, buffer => finalSegment buffer
  | fuel + 1, buffer =>
      if buffer.length < 10 then finalSegment buffer
      else
        match check_chunk_end_for_split buffer with
        | (true, pos, false) =>
            (if (pyStrip (buffer.take pos.toNat)).isEmpty then []
             else [pyStrip (buffer.take pos.toNat)]) ++
              splitLoopF fuel (pyStrip (buffer.drop pos.toNat))
        | _ => finalSegment buffer

/-- Model of `_split_content_by_punctuation`. -/
def split_content_by_punctuation (content : List Char) : List (List Char) :=
  splitLoopF content.length content

/-! ## `_handle_stream_response`

`plugins/ChatAgents/main.py` lines 288-364, restricted to textual
content chunks.  A chunk whose `chunk_type` is `"connect"` is not
appended to the buffer; after appending, when `stream_split_sentence`
is set and the buffer holds at least 10 characters, a single boundary
check may emit one segment (the buffer is only updated when the
stripped candidate is non-empty).  On stream end the raw buffer is
enqueued when its stripped form is non-empty. -/

structure StreamChunk where
  isConnect : Bool
  content : List Char
deriving Repr, DecidableEq

/-- One iteration of the chunk loop: returns the new buffer and the
segments enqueued during this iteration (in order). -/
def streamStep (splitSentence : Bool) (buffer : List Char) (ck : StreamChunk) :
    List Char × List (List Char) :=
  if ck.isConnect then (buffer, [])
  else
    if splitSentence && decide (10 ≤ (buffer ++ ck.content).length) then
      match check_chunk_end_for_split (buffer ++ ck.content) with
      | (true, pos, false) =>
          if (pyStrip ((buffer ++ ck.content).take pos.toNat)).isEmpty then
            (buffer ++ ck.content, [])
          else
            (pyStrip ((buffer ++ ck.content).drop pos.toNat),
             [pyStrip ((buffer ++ ck.content).take pos.toNat)])
      | _ => (buffer ++ ck.content, [])
    else (buffer ++ ck.content, [])

/-- The chunk loop from an arbitrary `(buffer, emitted)` state. -/
def streamRunFrom (splitSentence : Bool) :
    List Char × List (List Char) → List StreamChunk → List Char × List (List Char)
  | st, [] => st
  | (buffer, out), ck :: rest =>
      let (buf, emitted) := streamStep splitSentence buffer ck
      streamRunFrom splitSentence (buf, out ++ emitted) rest

/-- All segments enqueued by `_handle_stream_response` for a completed
stream, including the final flush of the (unstripped) buffer. -/
def streamSegments (splitSentence : Bool) (chunks : List StreamChunk) :
    List (List Char) :=
  let (buffer, out) := streamRunFrom splitSentence ([], []) chunks
  out ++ (if (pyStrip buffer).isEmpty then [] else [buffer])

/-- The full accumulated text of a stream: the concatenation of every
chunk that was appended to the buffer. -/
def accumText : List StreamChunk → List Char
  | [] => []
  | ck :: rest => (if ck.isConnect then [] else ck.content) ++ accumText rest


/-! ## Round-trip relations

`Interleaves orig segs` states that `orig` is exactly the segments of
`segs`, in order, separated (and surrounded) by whitespace-only blocks —
the spec's round-trip law "concatenation of emitted segments equals the
accumulated text with only boundary-adjacent whitespace trimmed".

`Dilute core orig` states that `orig` is `core` with extra whitespace
characters inserted at arbitrary positions — the weaker law that no
character other than whitespace is lost and none is duplicated. -/

inductive Interleaves : List Char → List (List Char) → Prop
  | nil (ws : List Char) (hw : allSpace ws) : Interleaves ws []
  | cons (ws s rest : List Char) (segs : List (List Char)) (hw : allSpace ws)
      (hs : s ≠ []) (h : Interleaves rest segs) :
      Interleaves (ws ++ s ++ rest) (s :: segs)

theorem Interleaves.prepend_white {t : List Char} {segs : List (List Char)}
    {w : List Char} (hw : allSpace w) (h : Interleaves t segs) :
    Interleaves (w ++ t) segs := by
  induction h with
  | nil ws hws => exact .nil (w ++ ws) (allSpace_append hw hws)
  | cons ws s rest segs hws hs h _ih =>
      have heq : w ++ (ws ++ s ++ rest) = (w ++ ws) ++ s ++ rest := by simp
      rw [heq]
      exact .cons (w ++ ws) s rest segs (allSpace_append hw hws) hs h

theorem Interleaves.append_white {t : List Char} {segs : List (List Char)}
    {w : List Char} (h : Interleaves t segs) (hw : allSpace w) :
    Interleaves (t ++ w) segs := by
  induction h with
  | nil ws hws => exact .nil (ws ++ w) (allSpace_append hws hw)
  | cons ws s rest segs hws hs _ ih =>
      have : (ws ++ s ++ rest) ++ w = ws ++ s ++ (rest ++ w) := by simp
      rw [this]
      exact .cons ws s (rest ++ w) segs hws hs ih

/-- Substring test (Python `in` for strings): some suffix of `s` starts
with `pat`. -/
def containsSub (pat : List Char) : List Char → Bool
  | [] => pat.isEmpty
  | c :: rest => pat.isPrefixOf (c :: rest) || containsSub pat rest

theorem containsSub_self_append (p t : List Char) :
    containsSub p (p ++ t) = true := by
  cases p with
  | nil =>
      cases t with
      | nil => rfl
      | cons c r =>
          show (List.isPrefixOf [] (c :: r) || containsSub [] r) = true
          simp [List.isPrefixOf]
  | cons a p' =>
      have hp : (a :: p').isPrefixOf ((a :: p') ++ t) = true :=
        List.isPrefixOf_iff_prefix.mpr (List.prefix_append _ _)
      show ((a :: p').isPrefixOf ((a :: p') ++ t) || containsSub (a :: p') (p' ++ t)) = true
      rw [hp, Bool.true_or]

theorem containsSub_prepend {p t : List Char} (a : List Char)
    (h : containsSub p t = true) : containsSub p (a ++ t) = true := by
  induction a with
  | nil => simpa using h
  | cons c a' ih =>
      have heq : containsSub p ((c :: a') ++ t) =
          (p.isPrefixOf ((c :: a') ++ t) || containsSub p (a' ++ t)) := by
        rw [List.cons_append]
        rfl
      rw [heq, ih, Bool.or_true]

/-- Every segment of an interleaving occurs contiguously in the original
text. -/
theorem Interleaves.seg_containsSub {orig : List Char} {segs : List (List Char)}
    (h : Interleaves orig segs) {s : List Char} (hs : s ∈ segs) :
    containsSub s orig = true := by
  induction h with
  | nil ws hws => cases hs
  | cons ws s₁ rest segs hws hs₁ _ ih =>
      rcases List.mem_cons.mp hs with rfl | hmem
      · have : ws ++ s ++ rest = ws ++ (s ++ rest) := by simp
        rw [this]
        exact containsSub_prepend ws (containsSub_self_append s rest)
      · have : ws ++ s₁ ++ rest = (ws ++ s₁) ++ rest := by simp
        rw [this]
        exact containsSub_prepend (ws ++ s₁) (ih hmem)

inductive Dilute : List Char → List Char → Prop
  | nil : Dilute [] []
  | keep (c : Char) {core orig : List Char} (h : Dilute core orig) :
      Dilute (c :: core) (c :: orig)
  | skip {c : Char} (hc : pyIsSpace c = true) {core orig : List Char}
      (h : Dilute core orig) : Dilute core (c :: orig)

theorem dilute_refl (s : List Char) : Dilute s s := by
  induction s with
  | nil => exact .nil
  | cons c t ih => exact .keep c ih

theorem dilute_allSpace {w : List Char} (hw : allSpace w) : Dilute [] w := by
  induction w with
  | nil => exact .nil
  | cons c t ih =>
      exact .skip (hw c (List.mem_cons_self c t))
        (ih fun x hx => hw x (List.mem_cons_of_mem c hx))

theorem dilute_append {a b a₂ b₂ : List Char}
    (h : Dilute a b) (h₂ : Dilute a₂ b₂) : Dilute (a ++ a₂) (b ++ b₂) := by
  induction h with
  | nil => simpa using h₂
  | keep c _ ih => exact .keep c ih
  | skip hc _ ih => exact .skip hc ih

theorem dilute_nil_right {a : List Char} (h : Dilute a []) : a = [] := by
  cases h
  rfl

theorem dilute_trans {a b c : List Char} (h₁ : Dilute a b) (h₂ : Dilute b c) :
    Dilute a c := by
  induction h₂ generalizing a with
  | nil => exact h₁
  | keep x h ih =>
      cases h₁ with
      | keep _ h' => exact .keep x (ih h')
      | skip hx h' => exact .skip hx (ih h')
  | skip hx h ih => exact .skip hx (ih h₁)

/-- Stripping only removes whitespace: the stripped list dilutes to the
original. -/
theorem dilute_pyStrip (s : List Char) : Dilute (pyStrip s) s := by
  obtain ⟨w₁, w₂, h₁, h₂, hs⟩ := pyStrip_decomp s
  conv_rhs => rw [hs]
  have h := dilute_append
    (dilute_append (dilute_allSpace h₁) (dilute_refl (pyStrip s)))
    (dilute_allSpace h₂)
  simpa using h

/-! ## Round-trip proofs -/

theorem interleaves_finalSegment (b : List Char) : Interleaves b (finalSegment b) := by
  unfold finalSegment
  by_cases h : (pyStrip b).isEmpty
  · rw [if_pos h]
    exact .nil b (pyStrip_nil_allSpace (List.isEmpty_iff.mp h))
  · rw [if_neg h]
    obtain ⟨w₁, w₂, h₁, h₂, hs⟩ := pyStrip_decomp b
    have hne : pyStrip b ≠ [] := fun hn => h (by simp [hn])
    conv_lhs => rw [hs]
    exact .cons w₁ (pyStrip b) w₂ [] h₁ hne (.nil w₂ h₂)

/-- Round-trip law for the splitting loop: the input is exactly the
produced segments interleaved with whitespace blocks, for every fuel. -/
theorem interleaves_splitLoopF (fuel : Nat) :
    ∀ b : List Char, Interleaves b (splitLoopF fuel b) := by
  induction fuel with
  | zero => intro b; exact interleaves_finalSegment b
  | succ fuel ih =>
      intro b
      rw [splitLoopF]
      by_cases hlen : b.length < 10
      · rw [if_pos hlen]; exact interleaves_finalSegment b
      · rw [if_neg hlen]
        rcases hc : check_chunk_end_for_split b with ⟨found, pos, special⟩
        cases found with
        | false => exact interleaves_finalSegment b
        | true =>
            cases special with
            | true => exact interleaves_finalSegment b
            | false =>
                dsimp only
                have hb : b = b.take pos.toNat ++ b.drop pos.toNat :=
                  (List.take_append_drop pos.toNat b).symm
                obtain ⟨w₁, w₂, hw₁, hw₂, hTake⟩ := pyStrip_decomp (b.take pos.toNat)
                obtain ⟨w₃, w₄, hw₃, hw₄, hDrop⟩ := pyStrip_decomp (b.drop pos.toNat)
                have hRest : Interleaves (b.drop pos.toNat)
                    (splitLoopF fuel (pyStrip (b.drop pos.toNat))) := by
                  conv_lhs => rw [hDrop]
                  have h₀ := (ih (pyStrip (b.drop pos.toNat))).append_white hw₄
                  have h₁ := Interleaves.prepend_white hw₃ h₀
                  simpa using h₁
                by_cases hts : (pyStrip (b.take pos.toNat)).isEmpty
                · rw [if_pos hts, List.nil_append]
                  conv_lhs => rw [hb]
                  exact Interleaves.prepend_white
                    (pyStrip_nil_allSpace (List.isEmpty_iff.mp hts)) hRest
                · rw [if_neg hts]
                  have hne : pyStrip (b.take pos.toNat) ≠ [] :=
                    fun hn => hts (by simp [hn])
                  conv_lhs => rw [hb, hTake]
                  have hcons := Interleaves.cons w₁ (pyStrip (b.take pos.toNat))
                    (w₂ ++ b.drop pos.toNat)
                    (splitLoopF fuel (pyStrip (b.drop pos.toNat))) hw₁ hne
                    (Interleaves.prepend_white hw₂ hRest)
                  simpa using hcons

/-- Round-trip law for `_split_content_by_punctuation`. -/
theorem interleaves_split_content (content : List Char) :
    Interleaves content (split_content_by_punctuation content) :=
  interleaves_splitLoopF content.length content

theorem streamStep_dilute (sp : Bool) (buffer : List Char) (ck : StreamChunk)
    (out : List (List Char)) (acc : List Char)
    (H : Dilute (out.flatten ++ buffer) acc) :
    Dilute ((out ++ (streamStep sp buffer ck).2).flatten ++ (streamStep sp buffer ck).1)
      (acc ++ (if ck.isConnect then [] else ck.content)) := by
  have hbase : Dilute ((out ++ []).flatten ++ (buffer ++ ck.content))
      (acc ++ ck.content) := by
    have h := dilute_append H (dilute_refl ck.content)
    simpa using h
  unfold streamStep
  by_cases hconn : ck.isConnect
  · rw [if_pos hconn, if_pos hconn]
    simpa using H
  · rw [if_neg hconn, if_neg hconn]
    by_cases hsp : (sp && decide (10 ≤ (buffer ++ ck.content).length)) = true
    · rw [if_pos hsp]
      rcases hc : check_chunk_end_for_split (buffer ++ ck.content) with ⟨found, pos, special⟩
      cases found with
      | false => exact hbase
      | true =>
          cases special with
          | true => exact hbase
          | false =>
              dsimp only
              by_cases hts : (pyStrip ((buffer ++ ck.content).take pos.toNat)).isEmpty
              · rw [if_pos hts]
                exact hbase
              · rw [if_neg hts]
                have h₁ : Dilute (pyStrip ((buffer ++ ck.content).take pos.toNat) ++
                    pyStrip ((buffer ++ ck.content).drop pos.toNat)) (buffer ++ ck.content) := by
                  have h := dilute_append
                    (dilute_pyStrip ((buffer ++ ck.content).take pos.toNat))
                    (dilute_pyStrip ((buffer ++ ck.content).drop pos.toNat))
                  simpa [List.take_append_drop] using h
                have h₂ := dilute_append (dilute_refl out.flatten) h₁
                have h₃ : Dilute (out.flatten ++ (buffer ++ ck.content))
                    (acc ++ ck.content) := by
                  have h := dilute_append H (dilute_refl ck.content)
                  simpa using h
                have h₄ := dilute_trans h₂ h₃
                simpa using h₄
    · rw [if_neg hsp]
      exact hbase

theorem streamRunFrom_dilute (sp : Bool) :
    ∀ (chunks : List StreamChunk) (buffer : List Char) (out : List (List Char))
      (acc : List Char), Dilute (out.flatten ++ buffer) acc →
      Dilute ((streamRunFrom sp (buffer, out) chunks).2.flatten ++
              (streamRunFrom sp (buffer, out) chunks).1)
        (acc ++ accumText chunks) := by
  intro chunks
  induction chunks with
  | nil =>
      intro buffer out acc H
      simpa [streamRunFrom, accumText] using H
  | cons ck rest ih =>
      intro buffer out acc H
      rcases hstep : streamStep sp buffer ck with ⟨buf, emitted⟩
      have hstep' := streamStep_dilute sp buffer ck out acc H
      rw [hstep] at hstep'
      have hrec := ih buf (out ++ emitted)
        (acc ++ (if ck.isConnect then [] else ck.content)) hstep'
      rw [streamRunFrom, hstep]
      simpa [accumText, List.append_assoc] using hrec

/-- Weak round-trip law for the streaming handler: the concatenation of
all enqueued segments (including the final flush) equals the
accumulated text with only whitespace characters removed. -/
theorem streamSegments_dilute (sp : Bool) (chunks : List StreamChunk) :
    Dilute (streamSegments sp chunks).flatten (accumText chunks) := by
  have H := streamRunFrom_dilute sp chunks [] [] [] (by simpa using Dilute.nil)
  unfold streamSegments
  rcases hrun : streamRunFrom sp ([], []) chunks with ⟨buffer, out⟩
  rw [hrun] at H
  simp only [List.nil_append] at H
  show Dilute ((out ++ if (pyStrip buffer).isEmpty = true then [] else [buffer]).flatten)
    (accumText chunks)
  by_cases hb : (pyStrip buffer).isEmpty
  · rw [if_pos hb]
    have hws : allSpace buffer := pyStrip_nil_allSpace (List.isEmpty_iff.mp hb)
    have h₁ : Dilute (out.flatten ++ []) (out.flatten ++ buffer) :=
      dilute_append (dilute_refl _) (dilute_allSpace hws)
    have h₂ := dilute_trans h₁ H
    simpa using h₂
  · rw [if_neg hb]
    simpa using H

/-! ## Quality of produced segments -/

theorem finalSegment_mem {b s : List Char} (h : s ∈ finalSegment b) :
    s ≠ [] ∧ pyStrip s = s := by
  unfold finalSegment at h
  by_cases hg : (pyStrip b).isEmpty
  · rw [if_pos hg] at h
    cases h
  · rw [if_neg hg] at h
    rcases List.mem_singleton.mp h with rfl
    exact ⟨fun hn => hg (by simp [hn]), pyStrip_idem b⟩

theorem splitLoopF_mem (fuel : Nat) :
    ∀ b s, s ∈ splitLoopF fuel b → s ≠ [] ∧ pyStrip s = s := by
  induction fuel with
  | zero => intro b s h; exact finalSegment_mem h
  | succ fuel ih =>
      intro b s h
      rw [splitLoopF] at h
      by_cases hlen : b.length < 10
      · rw [if_pos hlen] at h; exact finalSegment_mem h
      · rw [if_neg hlen] at h
        rcases hc : check_chunk_end_for_split b with ⟨found, pos, special⟩
        rw [hc] at h
        cases found with
        | false => exact finalSegment_mem h
        | true =>
            cases special with
            | true => exact finalSegment_mem h
            | false =>
                dsimp only at h
                rcases List.mem_append.mp h with h | h
                · by_cases hts : (pyStrip (b.take pos.toNat)).isEmpty
                  · rw [if_pos hts] at h
                    cases h
                  · rw [if_neg hts] at h
                    rcases List.mem_singleton.mp h with rfl
                    exact ⟨fun hn => hts (by simp [hn]), pyStrip_idem _⟩
                · exact ih _ s h

theorem split_content_mem {content s : List Char}
    (h : s ∈ split_content_by_punctuation content) : s ≠ [] ∧ pyStrip s = s :=
  splitLoopF_mem content.length content s h

theorem streamStep_emitted_nonblank (sp : Bool) (buffer : List Char)
    (ck : StreamChunk) : ∀ s ∈ (streamStep sp buffer ck).2, pyStrip s ≠ [] := by
  intro s hs
  unfold streamStep at hs
  by_cases hconn : ck.isConnect
  · rw [if_pos hconn] at hs
    cases hs
  · rw [if_neg hconn] at hs
    by_cases hsp : (sp && decide (10 ≤ (buffer ++ ck.content).length)) = true
    · rw [if_pos hsp] at hs
      rcases hc : check_chunk_end_for_split (buffer ++ ck.content) with ⟨found, pos, special⟩
      rw [hc] at hs
      cases found with
      | false => cases hs
      | true =>
          cases special with
          | true => cases hs
          | false =>
              dsimp only at hs
              by_cases hts : (pyStrip ((buffer ++ ck.content).take pos.toNat)).isEmpty
              · rw [if_pos hts] at hs
                cases hs
              · rw [if_neg hts] at hs
                rcases List.mem_singleton.mp hs with rfl
                rw [pyStrip_idem]
                exact fun hn => hts (by simp [hn])
    · rw [if_neg hsp] at hs
      cases hs

theorem streamRunFrom_nonblank (sp : Bool) :
    ∀ (chunks : List StreamChunk) (buffer : List Char) (out : List (List Char)),
      (∀ s ∈ out, pyStrip s ≠ []) →
      ∀ s ∈ (streamRunFrom sp (buffer, out) chunks).2, pyStrip s ≠ [] := by
  intro chunks
  induction chunks with
  | nil =>
      intro buffer out hout s hs
      exact hout s hs
  | cons ck rest ih =>
      intro buffer out hout s hs
      rcases hstep : streamStep sp buffer ck with ⟨buf, emitted⟩
      rw [streamRunFrom, hstep] at hs
      refine ih buf (out ++ emitted) ?_ s hs
      intro x hx
      rcases List.mem_append.mp hx with hx | hx
      · exact hout x hx
      · have := streamStep_emitted_nonblank sp buffer ck x
        rw [hstep] at this
        exact this hx

/-- Every segment ever enqueued by the streaming handler (including the
final flush, which is enqueued unstripped) is non-blank after
stripping. -/
theorem streamSegments_nonblank (sp : Bool) (chunks : List StreamChunk) :
    ∀ s ∈ streamSegments sp chunks, pyStrip s ≠ [] := by
  intro s hs
  unfold streamSegments at hs
  rcases hrun : streamRunFrom sp ([], []) chunks with ⟨buffer, out⟩
  rw [hrun] at hs
  dsimp only at hs
  rcases List.mem_append.mp hs with hs | hs
  · have h := streamRunFrom_nonblank sp chunks [] []
      (by intro x hx; cases hx) s
    rw [hrun] at h
    exact h hs
  · by_cases hb : (pyStrip buffer).isEmpty
    · rw [if_pos hb] at hs
      cases hs
    · rw [if_neg hb] at hs
      rcases List.mem_singleton.mp hs with rfl
      exact fun hn => hb (by simp [hn])

/-! ## Concrete buffers used to settle the segmentation claims -/

/-- Stream whose second segment fuses two words across a stripped
buffer tail: chunks `"One two. ok "` then `"done."`. -/
def streamFusionChunks : List StreamChunk :=
  [⟨false, lchars "One two. ok "⟩, ⟨false, lchars "done."⟩]

/-- A buffer with an open code fence that lies entirely outside the
50-character look-back window of the boundary checker. -/
def fenceGapBuffer : List Char :=
  lchars "```" ++ List.replicate 50 'a' ++ lchars " more words. End"

/-- A buffer in which the decimal `3.14` follows a whitespace-separated
token. -/
def decimalBuffer : List Char := lchars "value is 3.14 and more"

/-- Claim C2 (counterexample): for the stream `["One two. ok ",
"done."]` the handler emits `["One two.", "okdone."]` while the
accumulated text is `"One two. ok done."`; the space between `ok` and
`done` is removed from the interior of the second segment, so the
emitted segments are not the accumulated text with only
boundary-adjacent whitespace trimmed. -/
theorem stream_roundtrip_counterexample :
    streamSegments true streamFusionChunks =
      [lchars "One two.", lchars "okdone."] ∧
    accumText streamFusionChunks = lchars "One two. ok done." ∧
    ¬ Interleaves (accumText streamFusionChunks)
        (streamSegments true streamFusionChunks) := by
  refine ⟨by decide, by decide, ?_⟩
  intro h
  have hmem : lchars "okdone." ∈ streamSegments true streamFusionChunks := by decide
  have hsub := h.seg_containsSub hmem
  revert hsub
  decide

/-- Claim C2 (amended): the round-trip law holds exactly for
`_split_content_by_punctuation` — the input is the emitted segments
interleaved with whitespace-only blocks — while for the streaming
handler only the weaker law holds: the concatenation of the enqueued
segments equals the accumulated text with whitespace characters removed
(no other character is lost, none is duplicated), but the removed
whitespace may lie in the interior of a later segment because the
buffer tail is stripped mid-stream. -/
theorem roundtrip_law_amended :
    (∀ content : List Char,
      Interleaves content (split_content_by_punctuation content)) ∧
    (∀ (sp : Bool) (chunks : List StreamChunk),
      Dilute (streamSegments sp chunks).flatten (accumText chunks)) :=
  ⟨interleaves_split_content, streamSegments_dilute⟩

/-- Claim C4 (counterexample): `fenceGapBuffer` contains an odd number
(one) of triple-backtick markers, yet the boundary check reports a
usable split position at index 65 — the open fence lies outside the
50-character look-back window, so the check never sees it. -/
theorem code_fence_counterexample :
    countSub fenceMarker fenceGapBuffer % 2 = 1 ∧
    check_chunk_end_for_split fenceGapBuffer = (true, 65, false) := by
  constructor
  · decide
  · decide

/-- Claim C4 (amended): when the 50-character tail window contains an
odd number of triple-backtick markers and the 150-character extended
window does as well, the boundary check reports the in-special-region
result `(false, -1, true)` and never a usable split position, whatever
punctuation the buffer contains. -/
theorem code_fence_window_amended (text : List Char)
    (h₁ : countSub fenceMarker (tailWindow text) % 2 = 1)
    (h₂ : countSub fenceMarker (extendedWindow text) % 2 = 1) :
    check_chunk_end_for_split text = (false, -1, true) := by
  have hne : text.isEmpty ≠ true := by
    intro h
    rw [List.isEmpty_iff.mp h] at h₁
    simp [tailWindow, countSub, countSubF] at h₁
  have hcond : (countSub fenceMarker (tailWindow text) % 2 != 0 &&
      countSub fenceMarker (extendedWindow text) % 2 != 0) = true := by
    rw [h₁, h₂]
    decide
  unfold check_chunk_end_for_split
  rw [if_neg hne]
  dsimp only
  rw [if_pos hcond]

theorem code_fence_window_amended_witness :
    check_chunk_end_for_split (lchars "```hello.") = (false, -1, true) :=
  code_fence_window_amended (lchars "```hello.") (by decide) (by decide)

/-- Claim C5 (counterexample): in `"value is 3.14 and more"` the
boundary check chooses position 11 — immediately after the period of
the decimal `3.14` — and the splitter cuts the number into
`"value is 3."` and `"14 and more"`: the Latin period rule only
requires one whitespace-preceded `\w` token, and digits are word
characters. -/
theorem decimal_split_counterexample :
    check_chunk_end_for_split decimalBuffer = (true, 11, false) ∧
    decimalBuffer.take 11 = lchars "value is 3." ∧
    split_content_by_punctuation decimalBuffer =
      [lchars "value is 3.", lchars "14 and more"] := by
  refine ⟨by decide, by decide, by decide⟩

/-- Claim C5 (amended): a period with no preceding
whitespace-and-word-run context, as in the bare fragment `"3.14"`, is
never chosen as a split position, and a period terminating a
whitespace-separated word, as in `"end of line. Next"`, is a valid
boundary (position 12, after `"end of line."`); however the rule
accepts a single whitespace-preceded token which may consist of digits,
so a decimal occurring after a space is split at its period. -/
theorem period_boundary_amended :
    check_chunk_end_for_split (lchars "3.14") = (false, -1, false) ∧
    check_chunk_end_for_split (lchars "end of line. Next") = (true, 12, false) ∧
    (lchars "end of line. Next").take 12 = lchars "end of line." ∧
    check_chunk_end_for_split decimalBuffer = (true, 11, false) := by
  refine ⟨by decide, by decide, by decide, by decide⟩

/-! ## Envelope normalization: `process_text_message`

`utils/xybot.py` lines 105-124: the field-normalization prefix of
`process_text_message`.  A conversation id ending in `@chatroom` marks a
group message; its content is split once on the first `":\n"` to
recover the sender, and a missing separator means the bot itself sent
the message.  For private chats the sender is the original peer, and a
self-sent message has its conversation id corrected to the recipient. -/

structure TextEnvelope where
  fromWxid : List Char
  toWxid : List Char
  content : List Char
deriving Repr, DecidableEq

structure NormalizedText where
  fromWxid : List Char
  senderWxid : List Char
  content : List Char
  isGroup : Bool
deriving Repr, DecidableEq

def chatroomSuffix : List Char := lchars "@chatroom"

def groupSeparator : List Char := lchars ":\n"

/-- Python `content.split(sep, 1)` when an occurrence exists: the parts
before and after the first occurrence of `sep`. -/
def splitOnceAt (sep : List Char) : List Char → Option (List Char × List Char)
  | [] => none
  | c :: rest =>
      if sep.isPrefixOf (c :: rest) then some ([], (c :: rest).drop sep.length)
      else
        match splitOnceAt sep rest with
        | some (a, b) => some (c :: a, b)
        | none => none

def process_text_message_normalize (botWxid : List Char) (msg : TextEnvelope) :
    NormalizedText :=
  if chatroomSuffix.isSuffixOf msg.fromWxid then
    match splitOnceAt groupSeparator msg.content with
    | some (sender, rest) => ⟨msg.fromWxid, sender, rest, true⟩
    | none => ⟨msg.fromWxid, botWxid, msg.content, true⟩
  else
    if msg.fromWxid == botWxid then ⟨msg.toWxid, msg.fromWxid, msg.content, false⟩
    else ⟨msg.fromWxid, msg.fromWxid, msg.content, false⟩

theorem splitOnceAt_none {sep s : List Char} (h : containsSub sep s = false) :
    splitOnceAt sep s = none := by
  induction s with
  | nil => rfl
  | cons c rest ih =>
      unfold containsSub at h
      rw [Bool.or_eq_false_iff] at h
      unfold splitOnceAt
      rw [if_neg (by simp [h.1]), ih h.2]

theorem splitOnceAt_groupSeparator_append {pre post : List Char}
    (h : containsSub groupSeparator pre = false) :
    splitOnceAt groupSeparator (pre ++ groupSeparator ++ post) =
      some (pre, post) := by
  have hgs : groupSeparator = [':', '\n'] := rfl
  rw [hgs] at h ⊢
  induction pre with
  | nil =>
      show splitOnceAt [':', '\n'] (':' :: '\n' :: post) = some ([], post)
      unfold splitOnceAt
      rw [if_pos (by simp [List.isPrefixOf])]
      rfl
  | cons c pre' ih =>
      unfold containsSub at h
      rw [Bool.or_eq_false_iff] at h
      have hnp : ¬ ([':', '\n'] <+: (c :: (pre' ++ [':', '\n'] ++ post))) := by
        intro hpre
        rcases List.cons_prefix_cons.mp hpre with ⟨hc, htail⟩
        cases pre' with
        | nil =>
            rcases List.cons_prefix_cons.mp htail with ⟨hd, _⟩
            exact absurd hd (by decide)
        | cons d pre'' =>
            rcases List.cons_prefix_cons.mp htail with ⟨hd, _⟩
            have htrue : ([':', '\n'].isPrefixOf (c :: d :: pre'')) = true :=
              List.isPrefixOf_iff_prefix.mpr
                (List.cons_prefix_cons.mpr ⟨hc,
                  List.cons_prefix_cons.mpr ⟨hd, List.nil_prefix⟩⟩)
            rw [h.1] at htrue
            exact Bool.false_ne_true htrue
      show splitOnceAt [':', '\n'] (c :: (pre' ++ [':', '\n'] ++ post)) =
        some (c :: pre', post)
      unfold splitOnceAt
      rw [if_neg (by rw [ List.isPrefixOf_iff_prefix]; exact hnp), ih h.2]

/-- Claim C1: for a text envelope whose conversation id ends with
`@chatroom`, normalization with a `":\n"` separator present sets the
sender to the prefix before the first separator and the content to the
suffix after it, marks the message as group, and leaves the
conversation id unchanged; with no separator present the sender is the
bot's own wxid and the content is the whole string. -/
theorem process_text_group_normalization
    (botWxid fw tw pre post whole : List Char)
    (hg : chatroomSuffix.isSuffixOf fw = true)
    (hpre : containsSub groupSeparator pre = false)
    (hwhole : containsSub groupSeparator whole = false) :
    process_text_message_normalize botWxid
        ⟨fw, tw, pre ++ groupSeparator ++ post⟩ = ⟨fw, pre, post, true⟩ ∧
    process_text_message_normalize botWxid ⟨fw, tw, whole⟩ =
        ⟨fw, botWxid, whole, true⟩ := by
  constructor
  · unfold process_text_message_normalize
    rw [if_pos hg]
    dsimp only
    rw [splitOnceAt_groupSeparator_append hpre]
  · unfold process_text_message_normalize
    rw [if_pos hg]
    dsimp only
    rw [splitOnceAt_none hwhole]

theorem process_text_group_normalization_witness :
    process_text_message_normalize (lchars "bot_wxid")
        ⟨lchars "room1@chatroom", lchars "bot_wxid",
          lchars "alice" ++ groupSeparator ++ lchars "hello bot"⟩ =
      ⟨lchars "room1@chatroom", lchars "alice", lchars "hello bot", true⟩ ∧
    process_text_message_normalize (lchars "bot_wxid")
        ⟨lchars "room1@chatroom", lchars "bot_wxid", lchars "hi all"⟩ =
      ⟨lchars "room1@chatroom", lchars "bot_wxid", lchars "hi all", true⟩ :=
  process_text_group_normalization (lchars "bot_wxid") (lchars "room1@chatroom")
    (lchars "bot_wxid") (lchars "alice") (lchars "hello bot") (lchars "hi all")
    (by decide) (by decide) (by decide)

/-! ## The policy gate `ignore_check`

`utils/xybot.py` lines 665-671. -/

def ignore_check (mode : List Char) (whitelist blacklist : List (List Char))
    (fromWxid senderWxid : List Char) : Bool :=
  if mode == lchars "Whitelist" then
    whitelist.contains fromWxid || whitelist.contains senderWxid
  else if mode == lchars "blacklist" then
    !(blacklist.contains fromWxid) && !(blacklist.contains senderWxid)
  else true

/-- Claim C8: `ignore_check` is a pure function of its arguments; in
`"Whitelist"` mode it accepts exactly when the conversation id or the
sender id is whitelisted, in `"blacklist"` mode exactly when neither is
blacklisted, and in every other mode it accepts unconditionally. -/
theorem ignore_check_modes (mode : List Char) (wl bl : List (List Char))
    (fw sw : List Char) :
    (mode = lchars "Whitelist" →
      (ignore_check mode wl bl fw sw = true ↔ fw ∈ wl ∨ sw ∈ wl)) ∧
    (mode = lchars "blacklist" →
      (ignore_check mode wl bl fw sw = true ↔ fw ∉ bl ∧ sw ∉ bl)) ∧
    (mode ≠ lchars "Whitelist" → mode ≠ lchars "blacklist" →
      ignore_check mode wl bl fw sw = true) := by
  refine ⟨?_, ?_, ?_⟩
  · intro hm
    subst hm
    unfold ignore_check
    rw [if_pos (by decide)]
    simp
  · intro hm
    subst hm
    unfold ignore_check
    rw [if_neg (by decide), if_pos (by decide)]
    simp
  · intro h₁ h₂
    unfold ignore_check
    rw [if_neg (by simpa using h₁), if_neg (by simpa using h₂)]

theorem ignore_check_modes_witness :
    ignore_check (lchars "Whitelist") [lchars "room1@chatroom"] []
      (lchars "room1@chatroom") (lchars "alice") = true :=
  ((ignore_check_modes (lchars "Whitelist") [lchars "room1@chatroom"] []
      (lchars "room1@chatroom") (lchars "alice")).1 rfl).mpr
    (Or.inl (by simp))

/-! ## `should_respond`

`plugins/ChatAgents/main.py` lines 842-876.  Python's
`str.lower` is modelled over ASCII (`Char.toLower`); the last-interaction
map with `dict.get(wxid, 0)` default is modelled as a total function.
Timestamps and the configured interval are exact rationals. -/

def lowerChars (s : List Char) : List Char := s.map Char.toLower

def should_respond (agentNames : List (List Char)) (activeInterval : ℚ)
    (lastGroupChatTime : List Char → ℚ) (isGroup : Bool)
    (fromWxid content : List Char) (currentTime : ℚ) :
    Bool × (List Char → ℚ) :=
  if !isGroup then (true, lastGroupChatTime)
  else if agentNames.any (fun n => containsSub (lowerChars n) (lowerChars content)) then
    (true, fun w => if w == fromWxid then currentTime else lastGroupChatTime w)
  else if currentTime - lastGroupChatTime fromWxid > activeInterval * 1000 then
    (true, fun w => if w == fromWxid then currentTime else lastGroupChatTime w)
  else (false, lastGroupChatTime)

/-- Claim C9: for a group message whose content contains none of the
agent's names, `should_respond` returns true exactly when the gap
`currentTime - last` exceeds `active_interval * 1000` — the threshold
really is the configured interval multiplied by the constant 1000,
compared against the same clock that produced the (seconds-based)
timestamps. -/
theorem should_respond_threshold (names : List (List Char))
    (interval : ℚ) (last : List Char → ℚ) (fw content : List Char) (ct : ℚ)
    (hnames : names.any
      (fun n => containsSub (lowerChars n) (lowerChars content)) = false) :
    (should_respond names interval last true fw content ct).1 =
      decide (ct - last fw > interval * 1000) := by
  unfold should_respond
  rw [if_neg (by simp), if_neg (by simp [hnames])]
  by_cases hgap : ct - last fw > interval * 1000
  · rw [if_pos hgap]
    simp [hgap]
  · rw [if_neg hgap]
    simp [hgap]

theorem should_respond_threshold_witness :
    (should_respond [lchars "Bot"] 300 (fun _ => 0) true
        (lchars "room1@chatroom") (lchars "hello everyone") 300001).1 = true := by
  rw [should_respond_threshold [lchars "Bot"] 300 (fun _ => 0)
    (lchars "room1@chatroom") (lchars "hello everyone") 300001 (by decide)]
  rw [decide_eq_true_eq]
  norm_num

/-! ## Voice-channel probability

`plugins/ChatAgents/main.py` lines 762-780: with voice enabled, the
probability is `min(max(1 - len/max_voice_length, 0.2), 0.6)` over the
bracket-stripped content length, and the voice branch additionally
requires `content_wo_bracket_len >= 4`; a single uniform draw
`random.random()` is compared against the probability. -/

def voice_probability (maxVoiceLength : ℚ) (contentLen : ℕ) : ℚ :=
  min (max (1 - (contentLen : ℚ) / maxVoiceLength) (1/5)) (3/5)

/-- The voice-vs-text decision for one draw of `random.random()`. -/
def choose_voice (maxVoiceLength : ℚ) (randomDraw : ℚ) (contentLen : ℕ) : Bool :=
  decide (randomDraw < voice_probability maxVoiceLength contentLen) &&
  decide (4 ≤ contentLen)

/-- Claim C6: the voice probability is monotonically non-increasing in
the bracket-stripped content length, always lies in `[0.2, 0.6]`, and a
content shorter than 4 characters never selects the voice channel,
whatever the random draw. -/
theorem voice_probability_properties :
    (∀ (m : ℚ) (l₁ l₂ : ℕ), 0 < m → l₁ ≤ l₂ →
      voice_probability m l₂ ≤ voice_probability m l₁) ∧
    (∀ (m : ℚ) (l : ℕ),
      1/5 ≤ voice_probability m l ∧ voice_probability m l ≤ 3/5) ∧
    (∀ (m r : ℚ) (l : ℕ), l < 4 → choose_voice m r l = false) := by
  refine ⟨?_, ?_, ?_⟩
  · intro m l₁ l₂ hm hl
    unfold voice_probability
    have hdiv : (l₁ : ℚ) / m ≤ (l₂ : ℚ) / m :=
      (div_le_div_iff_of_pos_right hm).mpr (by exact_mod_cast hl)
    have hsub : 1 - (l₂ : ℚ) / m ≤ 1 - (l₁ : ℚ) / m := by linarith
    exact min_le_min (max_le_max hsub le_rfl) le_rfl
  · intro m l
    unfold voice_probability
    constructor
    · exact le_min (le_max_right _ _) (by norm_num)
    · exact min_le_right _ _
  · intro m r l hl
    unfold choose_voice
    have : decide (4 ≤ l) = false := by
      simp
      omega
    rw [this, Bool.and_false]

theorem voice_probability_properties_witness :
    voice_probability 28 9 ≤ voice_probability 28 2 ∧
    1/5 ≤ voice_probability 28 9 ∧
    choose_voice 28 (1/2) 3 = false :=
  ⟨voice_probability_properties.1 28 2 9 (by norm_num) (by norm_num),
   (voice_probability_properties.2.1 28 9).1,
   voice_probability_properties.2.2 28 (1/2) 3 (by norm_num)⟩

/-! ## The dispatch-queue consumer `_message_sender`

`plugins/ChatAgents/main.py` lines 708-812.  The consumer dequeues one
item at a time from the single FIFO queue; a dictionary item with
`chunk_type == "script_finished"` triggers a rich-link send, a text
item is stripped and sent as text or voice; the whole body runs inside
`try`, and any exception is logged and the loop continues with the next
item.  The queue is modelled as the list of items in dequeue order; a
transport failure while sending item `i` is modelled by the oracle
`sendOk i = false` and surfaces as the caught exception. -/

inductive QueuedContent
  | text (s : List Char)
  | script (title : List Char)
deriving Repr, DecidableEq

structure QueueItem where
  fromWxid : List Char
  content : QueuedContent
deriving Repr, DecidableEq

inductive SendEvent
  | sentText (fromWxid content : List Char)
  | sentLink (fromWxid title : List Char)
  | caughtError (fromWxid : List Char)
deriving Repr, DecidableEq

/-- The fallible body of one consumer iteration (steps 2-6 of the
delivery protocol): a raised transport error is returned as `.error`. -/
def process_queue_item (sendOk : Bool) (item : QueueItem) :
    Except (List Char) SendEvent :=
  match item.content with
  | .script title =>
      if sendOk then .ok (.sentLink item.fromWxid title)
      else .error (lchars "send_link_message failed")
  | .text s =>
      if sendOk then .ok (.sentText item.fromWxid (pyStrip s))
      else .error (lchars "send_text_message failed")

/-- The consumer loop over the dequeued items: each iteration is
wrapped in `try`/`except`, so an `.error` is logged (recorded as
`.caughtError`) and the loop continues. -/
def message_sender_loop (sendOk : Nat → Bool) : Nat → List QueueItem → List SendEvent
  | _, [] => []
  | idx, item :: rest =>
      match process_queue_item (sendOk idx) item with
      | .ok ev => ev :: message_sender_loop sendOk (idx + 1) rest
      | .error _ => .caughtError item.fromWxid :: message_sender_loop sendOk (idx + 1) rest

/-- The successful delivery of an item, as the loop performs it. -/
def deliveryOf (item : QueueItem) : SendEvent :=
  match item.content with
  | .script title => .sentLink item.fromWxid title
  | .text s => .sentText item.fromWxid (pyStrip s)

/-- Modelled from the spec: "items for the same conversation are
delivered in enqueue order; a single delivery failure must never stop
the consumer" — the intended deliveries are exactly the successful
items, in enqueue order, failures skipped. -/
def fifoDeliveries (sendOk : Nat → Bool) : Nat → List QueueItem → List SendEvent
  | _, [] => []
  | idx, item :: rest =>
      if sendOk idx then deliveryOf item :: fifoDeliveries sendOk (idx + 1) rest
      else fifoDeliveries sendOk (idx + 1) rest

/-- The successful sends of an event trace, in order. -/
def successfulSends (events : List SendEvent) : List SendEvent :=
  events.filter fun e =>
    match e with
    | .caughtError _ => false
    | _ => true

theorem message_sender_loop_length (sendOk : Nat → Bool) :
    ∀ (idx : Nat) (items : List QueueItem),
      (message_sender_loop sendOk idx items).length = items.length := by
  intro idx items
  induction items generalizing idx with
  | nil => rfl
  | cons item rest ih =>
      rw [message_sender_loop]
      rcases hp : process_queue_item (sendOk idx) item with e | ev
      all_goals simp [ih]

theorem message_sender_loop_sends (sendOk : Nat → Bool) :
    ∀ (idx : Nat) (items : List QueueItem),
      successfulSends (message_sender_loop sendOk idx items) =
        fifoDeliveries sendOk idx items := by
  intro idx items
  induction items generalizing idx with
  | nil => rfl
  | cons item rest ih =>
      rw [message_sender_loop, fifoDeliveries]
      by_cases hok : sendOk idx = true
      · rw [if_pos hok]
        rcases item with ⟨fw, content⟩
        cases content with
        | text s =>
            simp only [process_queue_item, hok, if_pos]
            simp [successfulSends, deliveryOf, ← ih (idx + 1)]
        | script title =>
            simp only [process_queue_item, hok, if_pos]
            simp [successfulSends, deliveryOf, ← ih (idx + 1)]
      · rw [if_neg hok]
        rcases item with ⟨fw, content⟩
        cases content with
        | text s =>
            simp only [process_queue_item, Bool.not_eq_true] at hok ⊢
            rw [hok]
            simp [successfulSends, ← ih (idx + 1)]
        | script title =>
            simp only [process_queue_item, Bool.not_eq_true] at hok ⊢
            rw [hok]
            simp [successfulSends, ← ih (idx + 1)]

/-- Oracle that fails exactly the second dequeued item. -/
def failSecond (i : Nat) : Bool := !(i == 1)

/-- The scenario queue `[A, B, C]` for one conversation. -/
def convItems : List QueueItem :=
  [⟨lchars "conv1", .text (lchars "A")⟩,
   ⟨lchars "conv1", .text (lchars "B")⟩,
   ⟨lchars "conv1", .text (lchars "C")⟩]

/-- Claim C7: the consumer processes every dequeued item (no failure
terminates the loop), the successful sends are exactly the successful
items in enqueue (FIFO) order, and in the scenario `[A, B, C]` with a
forced failure on `B` the trace is: `A` sent, the `B` error caught and
logged, `C` still sent. -/
theorem message_sender_fifo_isolation :
    (∀ (sendOk : Nat → Bool) (idx : Nat) (items : List QueueItem),
      (message_sender_loop sendOk idx items).length = items.length) ∧
    (∀ (sendOk : Nat → Bool) (idx : Nat) (items : List QueueItem),
      successfulSends (message_sender_loop sendOk idx items) =
        fifoDeliveries sendOk idx items) ∧
    message_sender_loop failSecond 0 convItems =
      [.sentText (lchars "conv1") (lchars "A"),
       .caughtError (lchars "conv1"),
       .sentText (lchars "conv1") (lchars "C")] :=
  ⟨message_sender_loop_length, message_sender_loop_sends, by decide⟩

/-! ## Save/emit discipline of the normalization pipeline

Each `process_*_message` in `utils/xybot.py` is abstracted to its trace
of observable pipeline actions: appends to the message database
(`save_message`) and handler-event emissions (`EventManager.emit`).
The Boolean parameters record whether embedded-markup decoding succeeds
(a failure returns early) and whether the policy gate
(`ignore_check` together with the protection check) lets the event
out. -/

inductive PipelineAction
  | save
  | emit (event : List Char)
deriving Repr, DecidableEq

def isSaveAction : PipelineAction → Bool
  | .save => true
  | .emit _ => false

def saveCount (tr : List PipelineAction) : Nat :=
  (tr.filter isSaveAction).length

/-- Once an event has been emitted, no later save occurs. -/
def noSaveAfterEmit : List PipelineAction → Bool
  | [] => true
  | .save :: rest => noSaveAfterEmit rest
  | .emit _ :: rest => rest.all fun a => !(isSaveAction a)

/-- Trace of `process_text_message` (`utils/xybot.py` 105-174): the `MsgSource`
mention parse failing returns before the save; otherwise save, then the
gated emit of `at_message` or `text_message`. -/
def process_text_trace (parseOk accepted isAt : Bool) : List PipelineAction :=
  if !parseOk then []
  else [.save] ++
    (if accepted then
      [.emit (if isAt then lchars "at_message" else lchars "text_message")]
     else [])

/-- Trace of `process_image_message` (176-231): save first (logging the raw
XML), then the image-XML parse (failure returns), then the gated
emit. -/
def process_image_trace (parseOk accepted : Bool) : List PipelineAction :=
  [.save] ++
    (if !parseOk then [] else if accepted then [.emit (lchars "image_message")] else [])

/-- Trace of `process_voice_message` (233-293): save, then voice-XML parse
(failure returns), then the gated emit. -/
def process_voice_trace (parseOk accepted : Bool) : List PipelineAction :=
  [.save] ++
    (if !parseOk then [] else if accepted then [.emit (lchars "voice_message")] else [])

/-- Trace of `process_video_message` (508-548): save, download, gated emit. -/
def process_video_trace (accepted : Bool) : List PipelineAction :=
  [.save] ++ (if accepted then [.emit (lchars "video_message")] else [])

/-- Trace of `process_quote_message` (414-506): nested parse (failure returns,
nothing saved here), gated emit. -/
def process_quote_trace (parseOk accepted : Bool) : List PipelineAction :=
  if !parseOk then []
  else if accepted then [.emit (lchars "quote_message")] else []

/-- Trace of `process_link_message` (342-412): nested parse, gated emit, no
save of its own. -/
def process_link_trace (parseOk accepted : Bool) : List PipelineAction :=
  if !parseOk then []
  else if accepted then [.emit (lchars "link_message")] else []

/-- Trace of `process_file_message` (550-585): nested parse (failure returns),
then its own save, download, gated emit. -/
def process_file_trace (parseOk accepted : Bool) : List PipelineAction :=
  if !parseOk then []
  else [.save] ++ (if accepted then [.emit (lchars "file_message")] else [])

/-- Trace of `process_pat_message` (626-663): parse, save, gated emit. -/
def process_pat_trace (parseOk accepted : Bool) : List PipelineAction :=
  if !parseOk then []
  else [.save] ++ (if accepted then [.emit (lchars "pat_message")] else [])

inductive XmlKind
  | quote
  | link
  | file
  | uploading
  | unknown
deriving Repr, DecidableEq, Fintype

/-- Trace of `process_xml_message` (295-340): saves before parsing the inner
`appmsg` type, then dispatches to the nested decoder — the file branch
therefore saves a second time inside `process_file_trace`. -/
def process_xml_trace (parseOk : Bool) (kind : XmlKind)
    (innerParseOk accepted : Bool) : List PipelineAction :=
  [.save] ++
    (if !parseOk then []
     else
       match kind with
       | .quote => process_quote_trace innerParseOk accepted
       | .link => process_link_trace innerParseOk accepted
       | .file => process_file_trace innerParseOk accepted
       | .uploading => []
       | .unknown => [])

inductive SystemKind
  | pat
  | clientCheck
  | other
deriving Repr, DecidableEq, Fintype

/-- Trace of `process_system_message` (587-624): parses the system-XML type;
the `pat` branch delegates to `process_pat_trace`, the
`ClientCheckGetExtInfo` branch does nothing, and every other system
message is emitted with no save at all. -/
def process_system_trace (parseOk : Bool) (kind : SystemKind)
    (innerParseOk accepted : Bool) : List PipelineAction :=
  if !parseOk then []
  else
    match kind with
    | .pat => process_pat_trace innerParseOk accepted
    | .clientCheck => []
    | .other => if accepted then [.emit (lchars "system_message")] else []

/-- Claim C3 (counterexample): a successfully decoded, accepted file
message is saved twice — once by `process_xml_message` and once by
`process_file_message` — and a non-pat system message reaches its
handler with zero saves; both refute "exactly one `save_message` call
before the handler event". -/
theorem file_double_save_counterexample :
    saveCount (process_xml_trace true .file true true) = 2 ∧
    process_xml_trace true .file true true =
      [.save, .save, .emit (lchars "file_message")] ∧
    process_system_trace true .other true true =
      [.emit (lchars "system_message")] ∧
    saveCount (process_system_trace true .other true true) = 0 := by
  refine ⟨by decide, by decide, by decide, by decide⟩

/-- Claim C3 (amended): in every processing path all saves precede
every emitted handler event, and the save counts are: one for text
(when its mention parse succeeds), one for image, voice and video, one
for an xml message whose inner decode fails or is not a file, two for a
successfully decoded file message, one for a pat system message (when
decoded), and zero for every other system message. -/
theorem save_discipline_amended :
    (∀ parseOk accepted isAt : Bool,
      noSaveAfterEmit (process_text_trace parseOk accepted isAt) = true ∧
      saveCount (process_text_trace parseOk accepted isAt) =
        (if parseOk then 1 else 0)) ∧
    (∀ parseOk accepted : Bool,
      noSaveAfterEmit (process_image_trace parseOk accepted) = true ∧
      saveCount (process_image_trace parseOk accepted) = 1 ∧
      noSaveAfterEmit (process_voice_trace parseOk accepted) = true ∧
      saveCount (process_voice_trace parseOk accepted) = 1) ∧
    (∀ accepted : Bool,
      noSaveAfterEmit (process_video_trace accepted) = true ∧
      saveCount (process_video_trace accepted) = 1) ∧
    (∀ (parseOk : Bool) (kind : XmlKind) (innerParseOk accepted : Bool),
      noSaveAfterEmit (process_xml_trace parseOk kind innerParseOk accepted) = true ∧
      saveCount (process_xml_trace parseOk kind innerParseOk accepted) =
        (if parseOk && (kind == XmlKind.file) && innerParseOk then 2 else 1)) ∧
    (∀ (parseOk : Bool) (kind : SystemKind) (innerParseOk accepted : Bool),
      noSaveAfterEmit (process_system_trace parseOk kind innerParseOk accepted) = true ∧
      saveCount (process_system_trace parseOk kind innerParseOk accepted) =
        (if parseOk && (kind == SystemKind.pat) && innerParseOk then 1 else 0)) := by
  refine ⟨?_, ?_, ?_, ?_, ?_⟩
  · decide
  · decide
  · decide
  · decide
  · decide

/-- Claim C10: every element of the list returned by
`_split_content_by_punctuation` is non-empty and equal to its own
whitespace-stripped form, and the streaming handler never enqueues a
blank segment — both the mid-stream emissions and the final flush are
non-blank after stripping. -/
theorem segments_never_blank :
    (∀ (content s : List Char), s ∈ split_content_by_punctuation content →
      s ≠ [] ∧ pyStrip s = s) ∧
    (∀ (sp : Bool) (chunks : List StreamChunk) (s : List Char),
      s ∈ streamSegments sp chunks → pyStrip s ≠ []) :=
  ⟨fun _ _ h => split_content_mem h,
   fun sp chunks s h => streamSegments_nonblank sp chunks s h⟩

theorem segments_never_blank_witness :
    (lchars "value is 3." ≠ [] ∧
      pyStrip (lchars "value is 3.") = lchars "value is 3.") ∧
    pyStrip (lchars "okdone.") ≠ [] :=
  ⟨segments_never_blank.1 decimalBuffer (lchars "value is 3.") (by decide),
   segments_never_blank.2 true streamFusionChunks (lchars "okdone.") (by decide)⟩
